import Mathlib

/-!
Verification of the miniwdl source-archive module (`WDL/Zip.py`) and the runtime
value coercion module (`WDL/Value.py`), via a shallow embedding in Lean 4.

Paths and source text are modelled as `String`s; all string algorithms used by
the Python code (str.startswith, str.replace, str.split, os.path.commonprefix,
posixpath.normpath, posixpath.relpath, posixpath.join, posixpath.dirname) are
re-implemented here character-by-character, following the CPython `posixpath`
source, by structural recursion on `String.data` so that every definition is
executable and proofs can proceed by list induction.

Fallible Python code (assertion failures, KeyError, IndexError, OverflowError,
raised InputError) is modelled with `Option`/`Except`: `none`/`.error` means the
Python call raised instead of returning.
-/

namespace MiniwdlZip

/-- Wrap a character list back into a `String`. -/
def ofChars (l : List Char) : String := ⟨l⟩

/-- Decide whether `pat` is a (character-wise) leading segment of `s`.
    This is Python's `s.startswith(pat)` applied to explicit char lists. -/
def listIsPref : List Char → List Char → Bool
  | [], _ => true
  | _ :: _, [] => false
  | a :: as, b :: bs => a = b && listIsPref as bs

/-- Python `s.startswith(p)`. -/
def pyStartswith (s p : String) : Bool := listIsPref p.data s.data

/-- Python `os.path.commonprefix([a, b])`: the longest common leading character
    run of the two strings. -/
def commonPrefixChars : List Char → List Char → List Char
  | a :: as, b :: bs => if a = b then a :: commonPrefixChars as bs else []
  | _, _ => []

/-- Fuel-driven core of Python `s.replace(pat, rep)`: leftmost-first,
    non-overlapping replacement, never rescanning the replacement text.
    Each step consumes at least one character of `s` when `pat` is nonempty,
    so fuel `s.length` (supplied by `replaceChars`) is always sufficient.
    Recursion is structural on the fuel so that the kernel can evaluate it. -/
def replaceGo (pat rep : List Char) : Nat → List Char → List Char
  | 0, s => s
  | fuel + 1, s =>
    match s with
    | [] => []
    | c :: rest =>
      if listIsPref pat (c :: rest) ∧ ¬ pat = [] then
        rep ++ replaceGo pat rep fuel ((c :: rest).drop pat.length)
      else
        c :: replaceGo pat rep fuel rest

/-- Python `s.replace(pat, rep)` for a nonempty `pat`.
    (The degenerate empty pattern, which Python treats specially, never occurs
    in this module: the patterns are "://" and quote-delimited URIs.) -/
def replaceChars (pat rep s : List Char) : List Char :=
  replaceGo pat rep s.length s

/-- Python `pat in s` (substring containment). -/
def containsSub (pat : List Char) : List Char → Bool
  | [] => listIsPref pat []
  | c :: rest => listIsPref pat (c :: rest) || containsSub pat rest

/-- Python `s.split("/")` on a character list (empty fields kept, as in Python). -/
def splitSlash : List Char → List (List Char)
  | [] => [[]]
  | c :: rest =>
    if c = '/' then [] :: splitSlash rest
    else
      match splitSlash rest with
      | [] => [[c]]
      | g :: gs => (c :: g) :: gs

/-- Python `"/".join(parts)` on character lists. -/
def joinSlash : List (List Char) → List Char
  | [] => []
  | [c] => c
  | c :: rest => c ++ '/' :: joinSlash rest

/-- One step of the `posixpath.normpath` component loop: Python's
    `for comp in comps: ...` over the split components, maintaining `new_comps`. -/
def normLoop (abs : Bool) : List (List Char) → List (List Char) → List (List Char)
  | acc, [] => acc
  | acc, comp :: rest =>
    if comp = [] ∨ comp = ['.'] then normLoop abs acc rest
    else if comp ≠ ['.', '.'] ∨ (¬ abs ∧ acc = []) ∨ (acc ≠ [] ∧ acc.getLast? = some ['.', '.']) then
      normLoop abs (acc ++ [comp]) rest
    else if acc ≠ [] then normLoop abs acc.dropLast rest
    else normLoop abs acc rest

/-- Python `posixpath.normpath`, including the POSIX double-slash rule and the
    "." result for an empty outcome. -/
def normpath (p : String) : String :=
  if p.data = [] then "."
  else
    let n1 : Nat :=
      if listIsPref ['/'] p.data then
        if listIsPref ['/', '/'] p.data ∧ ¬ (listIsPref ['/', '/', '/'] p.data = true) then 2 else 1
      else 0
    let comps := splitSlash p.data
    let newComps := normLoop (n1 ≠ 0) [] comps
    let res := List.replicate n1 '/' ++ joinSlash newComps
    if res = [] then "." else ofChars res

/-- Python `posixpath.abspath`, with the process working directory taken to be
    "/" (the archive-relative strings this module feeds to `relpath` make the
    result independent of the actual working directory). -/
def pyAbs (p : String) : String :=
  if listIsPref ['/'] p.data then normpath p else normpath (ofChars ('/' :: p.data))

/-- The nonempty components `[x for x in abspath(p).split("/") if x]` used by
    `posixpath.relpath`. -/
def relComps (p : String) : List (List Char) :=
  (splitSlash (pyAbs p).data).filter (fun c => ¬ c = [])

/-- Length of the componentwise common leading run of two component lists
    (Python `os.path.commonprefix` applied to two lists). -/
def commonLen : List (List Char) → List (List Char) → Nat
  | a :: as, b :: bs => if a = b then commonLen as bs + 1 else 0
  | _, _ => 0

/-- Python `posixpath.relpath(p, start)`. -/
def relpath (p start : String) : String :=
  let pl := relComps p
  let sl := relComps start
  let i := commonLen sl pl
  let rel := List.replicate (sl.length - i) ['.', '.'] ++ pl.drop i
  if rel = [] then "." else ofChars (joinSlash rel)

/-- Python `posixpath.dirname`. -/
def dirname (p : String) : String :=
  let head := (p.data.reverse.dropWhile (fun c => ¬ c = '/')).reverse
  if head = [] ∨ head.all (fun c => c = '/') then ofChars head
  else ofChars ((head.reverse.dropWhile (fun c => c = '/')).reverse)

/-- Python `posixpath.basename`. -/
def basename (p : String) : String :=
  ofChars ((p.data.reverse.takeWhile (fun c => ¬ c = '/')).reverse)

/-- Python `posixpath.join(a, b)` (two-argument form, as used in `unpack`). -/
def pyJoin (a b : String) : String :=
  if listIsPref ['/'] b.data then b
  else if a.data = [] ∨ a.data.getLast? = some '/' then ofChars (a.data ++ b.data)
  else ofChars (a.data ++ '/' :: b.data)

/-! ## Archive path derivation (`WDL.Zip.build_zip_paths`, Zip.py lines 102-130)

Python iterates over the closure's keys and, per document `abspath`:
if `abspath.startswith(main_dir)`, the archive path is
`os.path.relpath(abspath, main_dir)`; otherwise it replaces "://" by "_" in
both strings, takes `os.path.commonprefix` of the results, asserts that the
prefix ends with "/", and stores the document under "__outside_wdl/" plus the
suffix beyond the prefix.  `none` models the AssertionError. -/

/-- Archive path chosen for one document of the closure by `build_zip_paths`.
    `none` models the AssertionError raised when the computed common textual
    prefix does not end with "/". -/
def zipPath (main_dir abspath : String) : Option String :=
  if pyStartswith abspath main_dir then some (relpath abspath main_dir)
  else
    let abspath2 := replaceChars [':', '/', '/'] ['_'] abspath.data
    let mainDir2 := replaceChars [':', '/', '/'] ['_'] main_dir.data
    let pfx := commonPrefixChars abspath2 mainDir2
    if listIsPref pfx abspath2 ∧ pfx.getLast? = some '/' then
      some (ofChars ("__outside_wdl/".data ++ abspath2.drop pfx.length))
    else none

/-- The whole archive path map of `build_zip_paths`, as an association list over
    the closure's keys; `none` if any document triggers the AssertionError. -/
def build_zip_paths (main_dir : String) (wdls : List String) :
    Option (List (String × String)) :=
  wdls.mapM (fun a => (zipPath main_dir a).map (fun z => (a, z)))

/-- Boolean check that `build_zip_paths` assigns pairwise distinct archive
    paths to the distinct members of a closure. -/
def zipPathsInjectiveB (main_dir : String) (wdls : List String) : Bool :=
  wdls.all (fun a => wdls.all (fun b =>
    (decide (zipPath main_dir a = zipPath main_dir b)) → (decide (a = b))))

/-! ## Canonical absolute paths

A canonical absolute path is "/" followed by "/"-separated components, each
nonempty, slash-free and distinct from "." and ".."; a canonical directory
identity (the form `build_source_dir` gives `main_dir`) additionally carries a
trailing "/".  These predicates let the injectivity theorem quantify over
exactly the canonical paths the claim speaks about. -/

/-- Components are slash-free character lists. -/
def slashFree (c : List Char) : Prop := ∀ x ∈ c, x ≠ '/'

/-- A tail of a path either is empty or starts at a separator. -/
def headSlash (xs : List Char) : Prop := xs = [] ∨ ∃ u, xs = '/' :: u

/-- One well-formed path component: nonempty, no slash, not "." or "..". -/
def goodComp (c : List Char) : Prop :=
  c ≠ [] ∧ (∀ x ∈ c, x ≠ '/') ∧ c ≠ ['.'] ∧ c ≠ ['.', '.']

instance (c : List Char) : Decidable (goodComp c) := by unfold goodComp; infer_instance

/-- All components of a list are well formed. -/
def goodComps (cs : List (List Char)) : Prop := ∀ c ∈ cs, goodComp c

instance (cs : List (List Char)) : Decidable (goodComps cs) := by
  unfold goodComps; infer_instance

/-- Characters of the canonical absolute file path with components `cs`
    (for example `fileOfComps [c₁, c₂]` is "/c₁/c₂"). -/
def fileOfComps : List (List Char) → List Char
  | [] => []
  | c :: cs => '/' :: c ++ fileOfComps cs

/-- Characters of the canonical directory identity with components `dc`,
    carrying the trailing slash `build_source_dir` appends to `main_dir`
    (for example `dirOfComps []` is "/" and `dirOfComps [c]` is "/c/"). -/
def dirOfComps (dc : List (List Char)) : List Char := fileOfComps dc ++ ['/']

/-! ## Document closure collection (`WDL.Zip.build_source_dir`, Zip.py lines 75-82)

The Python loop is
`wdls = {}; queue = [top_doc]` and then, while the queue is nonempty,
`a_doc = queue.pop()` (pop from the END of the list), push `imported_doc.doc`
for every import edge of `a_doc`, and record `wdls[a_doc.pos.abspath] = a_doc`.
There is no membership test before expanding a popped document.

Documents are identified here by canonical absolute path; the import graph is
an association list from a document's abspath to the abspaths of the documents
its import edges reference.  The loop is modelled with explicit fuel: a `none`
result means the loop has not finished within the given number of iterations,
and a graph on which every fuel value yields `none` makes the loop run
forever. -/

/-- First-match association-list lookup (Python dict indexing). -/
def assocLookup {α : Type} (g : List (String × α)) (a : String) : Option α :=
  match g with
  | [] => none
  | (k, v) :: rest => if k = a then some v else assocLookup rest a

/-- Abspaths referenced by the import edges of document `a` (empty when `a` is
    not a key of the graph). -/
def importsOf (g : List (String × List String)) (a : String) : List String :=
  (assocLookup g a).getD []

/-- Recording `wdls[abspath] = a_doc`: dict keys in insertion order. -/
def insertKey (w : List String) (a : String) : List String :=
  if a ∈ w then w else w ++ [a]

/-- The collection loop of `build_source_dir`, run for at most `fuel`
    iterations: pop from the end of the queue, append the popped document's
    imports, record its key.  `some wdls` is the loop finishing with that key
    set; `none` means the fuel was exhausted first. -/
def collectFuel (g : List (String × List String)) :
    Nat → List String → List String → Option (List String)
  | 0, _, _ => none
  | fuel + 1, queue, wdls =>
    match queue.getLast? with
    | none => some wdls
    | some a => collectFuel g fuel (queue.dropLast ++ importsOf g a) (insertKey wdls a)

/-- The collection loop never finishes from this state, whatever the fuel. -/
def collectDiverges (g : List (String × List String)) (queue wdls : List String) : Prop :=
  ∀ fuel, collectFuel g fuel queue wdls = none

/-- Weight function used to bound loop iterations, by fuel on the rank:
    `wAux g (r+1) a` is one plus the weights of `a`'s imports at fuel `r`. -/
def wAux (g : List (String × List String)) : Nat → String → Nat
  | 0, _ => 1
  | n + 1, a => 1 + ((importsOf g a).map (wAux g n)).sum

/-- Weight of a document under a rank function witnessing acyclicity. -/
def wOf (g : List (String × List String)) (rank : String → Nat) (a : String) : Nat :=
  wAux g (rank a + 1) a

/-- Total weight of a queue: the strictly decreasing measure of the loop. -/
def queueMeasure (g : List (String × List String)) (rank : String → Nat)
    (queue : List String) : Nat :=
  (queue.map (wOf g rank)).sum

/-! ## Import rewriting (`WDL.Zip.rewrite_imports`, Zip.py lines 133-160)

Per import edge: scan exactly the lines `range(pos.line - 1, pos.end_line)` of
the (already partially rewritten) line list; on each line, remember whether the
quote-delimited original URI occurs, and textually replace it by the
quote-delimited relative path between the two archive locations; after the
scan, `assert found`.  Positions are the parser's 1-based line numbers.
`none` models any raised exception (AssertionError from a scan with no match,
IndexError from a stale span past the end of the file, KeyError from a missing
archive-path entry). -/

/-- Source position span of an import statement (1-based, inclusive). -/
structure Pos where
  line : Nat
  end_line : Nat
deriving DecidableEq

/-- One import edge: literal URI text, position span, and the canonical
    abspath of the imported document (`imp.doc.pos.abspath`). -/
structure Import where
  uri : String
  pos : Pos
  doc_abspath : String
deriving DecidableEq

/-- A parsed document: canonical abspath, source lines, import edges. -/
structure Document where
  abspath : String
  source_lines : List String
  imports : List Import
deriving DecidableEq

/-- The inner line scan for one import edge, running `steps` iterations from
    line index `lineno`: Python `for lineno in range(lo, hi)` with
    `steps = hi - lo`.  Reads the current line (`none` = IndexError), extends
    `found`, conditionally stores the replaced line. -/
def scanGo (pat newPat : List Char) :
    Nat → List String → Bool → Nat → Option (List String × Bool)
  | 0, lines, found, _ => some (lines, found)
  | steps + 1, lines, found, lineno =>
    match lines.get? lineno with
    | none => none
    | some line =>
      let found2 := found || containsSub pat line.data
      let line2 := ofChars (replaceChars pat newPat line.data)
      let lines2 := if line2 = line then lines else lines.set lineno line2
      scanGo pat newPat steps lines2 found2 (lineno + 1)

/-- Processing of a single import edge by `rewrite_imports`: compute the new
    relative URI from the archive path map (Python `zip_paths[...]`; a missing
    key is a KeyError, hence `none`), scan the edge's span, and `assert found`.
    (Python evaluates the `zip_paths` lookups inside the loop body, so with an
    empty span a missing key raises AssertionError rather than KeyError; both
    are `none` here.) -/
def processImport (zip_paths : List (String × String)) (doc_abspath : String)
    (lines : List String) (imp : Import) : Option (List String) :=
  match assocLookup zip_paths imp.doc_abspath, assocLookup zip_paths doc_abspath with
  | some zp_imp, some zp_doc =>
    let new_uri := relpath zp_imp (dirname zp_doc)
    let pat := '"' :: imp.uri.data ++ ['"']
    let newPat := '"' :: new_uri.data ++ ['"']
    match scanGo pat newPat (imp.pos.end_line - (imp.pos.line - 1)) lines false (imp.pos.line - 1) with
    | some (lines2, found) => if found then some lines2 else none
    | none => none
  | _, _ => none

/-- Python `rewrite_imports(doc, zip_paths, logger)`: start from a copy of the
    document's source lines and process each import edge in order; `none`
    models a raised exception, `some` the returned new line list (the original
    `doc.source_lines` is never mutated). -/
def rewrite_imports (doc : Document) (zip_paths : List (String × String)) :
    Option (List String) :=
  doc.imports.foldlM (fun lines imp => processImport zip_paths doc.abspath lines imp)
    doc.source_lines

/-- Line index `i` lies outside the recorded span of every import edge. -/
def outsideSpans (imps : List Import) (i : Nat) : Prop :=
  ∀ imp ∈ imps, i < imp.pos.line - 1 ∨ imp.pos.end_line ≤ i

instance (imps : List Import) (i : Nat) : Decidable (outsideSpans imps i) := by
  unfold outsideSpans; infer_instance

/-! ## Unpacking (`WDL.Zip.unpack`, Zip.py lines 201-232)

The stages before manifest validation (directory/manifest-path resolution and
archive extraction) are filesystem and codec work outside this model; the model
starts from the parsed `MANIFEST.json` value, the absolute directory `dn`
containing the manifest, and the set `fs` of regular files present (stored by
canonical path; `isfile` consults it after textual normalization, standing in
for kernel path resolution in a symlink-free tree). -/

/-- Parsed JSON value (what `json.load` produced for MANIFEST.json). -/
inductive JValue
  | null
  | bool (b : Bool)
  | num (n : Int)
  | str (s : String)
  | arr (items : List JValue)
  | obj (fields : List (String × JValue))

/-- Python `manifest.get(key, None)` on a JSON object's fields. -/
def jGet (fields : List (String × JValue)) (key : String) : Option JValue :=
  assocLookup fields key

/-- The first `inputFileURLs` entry, exactly as the Python condition consumes
    it: present only when the field is a nonempty list whose first element is a
    string. -/
def firstInputURL (fields : List (String × JValue)) : Option String :=
  match jGet fields "inputFileURLs" with
  | some (JValue.arr (JValue.str s :: _)) => some s
  | _ => none

/-- Python `os.path.isfile` against the modelled file set. -/
def isfile (fs : List String) (p : String) : Bool := fs.contains (normpath p)

/-- Modelled from the spec: `path_really_within` lives in `WDL._util`, which is
    not under src/.  Per §4.5 step 6 of the spec, a path passes only if, after
    resolving traversal, it lies strictly inside the directory: the normalized
    directory plus "/" must lead the normalized path. -/
def path_really_within (p dn : String) : Bool :=
  listIsPref ((normpath dn).data ++ ['/']) (normpath p).data

/-- Contextual value yielded by `unpack` (Zip.py lines 163-169). -/
structure UnpackedZip where
  dir : String
  main_wdl : String
  input_file : Option String
deriving DecidableEq

/-- The manifest-validation and safety-check stage of `unpack` (Zip.py lines
    204-232): schema check on the manifest, resolution of `mainWorkflowURL`
    and of a nonempty first `inputFileURLs` entry against `dn` (Python's
    `if input_file` makes an empty string behave as absent), the isfile /
    path_really_within sanity check, and either a raised `Error.InputError`
    (modelled as `.error` with the message) or the yielded handle. -/
def unpack (fs : List String) (archive_fn dn : String) (manifest : JValue) :
    Except String UnpackedZip :=
  match manifest with
  | JValue.obj fields =>
    match jGet fields "mainWorkflowURL" with
    | some (JValue.str main_wdl) =>
      let input_file : Option String := firstInputURL fields
      let main_wdl_abs := pyJoin dn main_wdl
      let input_file_abs : Option String :=
        match input_file with
        | some s => if s.data = [] then none else some (pyJoin dn s)
        | none => none
      let mainOK := isfile fs main_wdl_abs && path_really_within main_wdl_abs dn
      let inputBad :=
        match input_file_abs with
        | some ia => ! (isfile fs ia && path_really_within ia dn)
        | none => false
      if (! mainOK || inputBad) = true then
        Except.error ("MANIFEST.json refers to missing or invalid files in " ++ archive_fn)
      else Except.ok ⟨dn, main_wdl_abs, input_file_abs⟩
    | _ => Except.error ("Missing or invalid MANIFEST.json in " ++ archive_fn)
  | _ => Except.error ("Missing or invalid MANIFEST.json in " ++ archive_fn)

/-! ## Archive assembly (`WDL.Zip.build`, Zip.py lines 19-66)

What `build` does to the world outside its temporary directories is a sequence
of filesystem operations; the model records the regular files each step
creates.  In order: `build_source_dir` writes one file per document into the
staging directory `zip_dir`; `build` then writes `default_input.json` (when
inputs were supplied) and `MANIFEST.json` there; `shutil.make_archive` creates
the compressed file inside the fresh temporary directory `tmp_dir`; finally
`os.rename` atomically moves it to the caller's `archive` path.  The
`ExitStack` removes everything under both temporary directories on every exit
path, success or failure.  A failed invocation is modelled by an index `k`:
the first `k` operations ran, the rest did not, and cleanup still happened. -/

/-- One filesystem effect of `build`. -/
inductive FsOp
  | write (p : String)
  | rename (src dst : String)
deriving DecidableEq

/-- Effect of one operation on the set of existing regular files. -/
def applyOp (files : List String) : FsOp → List String
  | FsOp.write p => if p ∈ files then files else files ++ [p]
  | FsOp.rename s d =>
    if s ∈ files then (files.filter (fun q => ¬ q = s ∧ ¬ q = d)) ++ [d] else files

/-- The `ExitStack` unwinding: both temporary directory trees are removed. -/
def cleanupTemps (zip_dir tmp_dir : String) (files : List String) : List String :=
  files.filter (fun p =>
    ¬ pyStartswith p (zip_dir ++ "/") = true ∧ ¬ pyStartswith p (tmp_dir ++ "/") = true)

/-- The ordered filesystem operations of one `build` invocation:
    `relPaths` are the archive paths of the closure's documents (the files
    `build_source_dir` writes under `zip_dir`), `base` is
    `os.path.basename(top_doc.pos.abspath)`, and `archive` the caller's
    destination path. -/
def buildOps (zip_dir tmp_dir : String) (relPaths : List String) (withInputs : Bool)
    (base archive : String) : List FsOp :=
  (relPaths.map (fun r => FsOp.write (zip_dir ++ "/" ++ r)))
  ++ (if withInputs then [FsOp.write (zip_dir ++ "/" ++ "default_input.json")] else [])
  ++ [FsOp.write (zip_dir ++ "/" ++ "MANIFEST.json"),
      FsOp.write (tmp_dir ++ "/" ++ (base ++ ".zip")),
      FsOp.rename (tmp_dir ++ "/" ++ (base ++ ".zip")) archive]

/-- One `build` invocation over initial files `files0`: `failAt = none` runs
    every operation (success), `failAt = some k` stops before the k-th
    operation (an exception there); cleanup runs in both cases.  Returns
    whether the call succeeded together with the resulting file set. -/
def runBuild (zip_dir tmp_dir : String) (relPaths : List String) (withInputs : Bool)
    (base archive : String) (failAt : Option Nat) (files0 : List String) :
    Bool × List String :=
  let ops := buildOps zip_dir tmp_dir relPaths withInputs base archive
  match failAt with
  | none => (true, cleanupTemps zip_dir tmp_dir (ops.foldl applyOp files0))
  | some k => (false, cleanupTemps zip_dir tmp_dir ((ops.take k).foldl applyOp files0))

end MiniwdlZip

namespace MiniwdlValue

/-! ## Runtime values (`WDL/Value.py`)

WDL types (`WDL.Type`, not under src/) are modelled structurally: the scalar
types plus parameterized arrays, with structural (hence reflexive) equality
standing in for `T.Base.__eq__`.  A value is its type tag plus its raw Python
value; an `Array` stores the `T.Array` type supplied to its constructor.  The
raw value of a `Float` is kept as the exact integer value of the IEEE-754
binary64 number, which loses nothing because every float in this module is
produced by Python `float(int)`. -/

/-- WDL type (`WDL.Type.Base` and its subclasses). -/
inductive WType
  | boolean
  | float
  | int
  | string
  | array (item : WType)
deriving DecidableEq

/-- WDL runtime value (`WDL.Value.Base` and its subclasses), carrying the raw
    Python value (and, for `Array`, the `T.Array` type given to `__init__`). -/
inductive WValue
  | boolean (value : Bool)
  | float (value : Int)
  | int (value : Int)
  | string (value : String)
  | array (ty : WType) (value : List WValue)

/-- The `type` attribute set by each subclass constructor. -/
def WValue.wtype : WValue → WType
  | WValue.boolean _ => WType.boolean
  | WValue.float _ => WType.float
  | WValue.int _ => WType.int
  | WValue.string _ => WType.string
  | WValue.array t _ => WType.array t

/-- Number of halvings of `n` until it is below 2^53 (the shift used when
    rounding to 53 significant bits); structural recursion on fuel, with fuel
    `n` always sufficient. -/
def roundShift (fuel n : Nat) : Nat :=
  match fuel with
  | 0 => 0
  | fuel + 1 => if n < 2 ^ 53 then 0 else roundShift fuel (n / 2) + 1

/-- Python `float(i)` for `int` i: the exact integer value of the IEEE-754
    binary64 nearest to `i` (round to nearest, ties to even, on 53 significant
    bits), or `none` for the OverflowError Python raises when the rounded
    magnitude reaches 2^1024. -/
def pyFloatOfInt (i : Int) : Option Int :=
  let n := i.natAbs
  if n < 2 ^ 53 then some i
  else
    let shift := roundShift n n
    let q := n / 2 ^ shift
    let r := n % 2 ^ shift
    let half := 2 ^ (shift - 1)
    let q2 := if half < r ∨ (r = half ∧ q % 2 = 1) then q + 1 else q
    let m := q2 * 2 ^ shift
    if m < 2 ^ 1024 then some (if i < 0 then -(m : Int) else (m : Int)) else none

/-- `WDL.Value.Base.coerce` (Value.py lines 34-42): assert that the desired
    type is absent or equal to the value's own type, then return the value
    itself; `none` models the AssertionError. -/
def base_coerce (v : WValue) (desired : Option WType) : Option WValue :=
  match desired with
  | none => some v
  | some t => if v.wtype = t then some v else none

/-- Dynamic-dispatch `coerce` (Value.py lines 34-42 and 63-66): `Int.coerce`
    intercepts a desired `T.Float` and returns `Float(float(self.value))`;
    every other case falls through to `Base.coerce`. -/
def coerce (v : WValue) (desired : Option WType) : Option WValue :=
  match v with
  | WValue.int i =>
    match desired with
    | some WType.float => (pyFloatOfInt i).map WValue.float
    | _ => base_coerce v desired
  | _ => base_coerce v desired

end MiniwdlValue

/-! ## Theorems -/

namespace MiniwdlZip

/-- Claim C1, counterexample.  With `main_dir = "/a/x/"` the two distinct
    canonical absolute source paths "/a/b.wdl" and "/b.wdl" both fall in the
    quarantine branch of `build_zip_paths` and both receive the archive path
    "__outside_wdl/b.wdl": their common textual prefixes with "/a/x/" are
    "/a/" and "/" respectively, so both suffixes are "b.wdl".  The archive
    path map is therefore not injective for every closure. -/
theorem zipPath_quarantine_collision :
    zipPathsInjectiveB "/a/x/" ["/a/b.wdl", "/b.wdl"] = false ∧
    zipPath "/a/x/" "/a/b.wdl" = some "__outside_wdl/b.wdl" ∧
    zipPath "/a/x/" "/b.wdl" = some "__outside_wdl/b.wdl" := by
  refine ⟨by decide, by decide, by decide⟩

/-- Claim C3.  The quarantine branch of `build_zip_paths` asserts that the
    longest common textual prefix of the normalized document identity and the
    normalized `main_dir` ends with "/"; the assertion fails (AssertionError,
    modelled as `none`) for the canonical absolute path "/a/xy/b.wdl" against
    `main_dir = "/a/x/"`, whose common prefix is "/a/x": the code never trims
    the prefix back to a separator boundary as the specified algorithm
    requires. -/
theorem zipPath_assert_fails_at_nonboundary :
    zipPath "/a/x/" "/a/xy/b.wdl" = none := by decide

end MiniwdlZip

namespace MiniwdlValue

set_option maxRecDepth 100000 in
/-- Claim C9, counterexample.  For the Int value 2^1024 the Python conversion
    `float(self.value)` raises OverflowError (the rounded magnitude reaches
    2^1024), so `Int.coerce` with desired type `T.Float` raises instead of
    returning a Float value. -/
theorem int_coerce_float_overflow :
    coerce (WValue.int (Int.ofNat (2 ^ 1024))) (some WType.float) = none := by
  have h : pyFloatOfInt (Int.ofNat (2 ^ 1024)) = none := by decide
  show (pyFloatOfInt (Int.ofNat (2 ^ 1024))).map WValue.float = none
  rw [h]
  rfl

/-- Claim C10.  For every runtime value, `coerce` with no desired type, or
    with a desired type equal to the value's own type, returns the value
    itself unchanged: the assertion in `Base.coerce` passes and `self` is
    returned, and `Int.coerce`'s Float interception does not apply. -/
theorem coerce_identity (v : WValue) :
    coerce v none = some v ∧ coerce v (some v.wtype) = some v := by
  cases v <;> simp [coerce, base_coerce, WValue.wtype]

end MiniwdlValue

namespace MiniwdlZip

/-- Helper for the cycle counterexample: from queue ["a"] over the self-import
    graph, each iteration pops "a" and pushes "a" again, so no amount of fuel
    finishes the loop. -/
theorem collect_cycle_aux (fuel : Nat) : ∀ w : List String,
    collectFuel [("a", ["a"])] fuel ["a"] w = none := by
  induction fuel with
  | zero => intro w; rfl
  | succ n ih =>
    intro w
    show collectFuel [("a", ["a"])] n
      (List.dropLast ["a"] ++ importsOf [("a", ["a"])] "a") (insertKey w "a") = none
    exact ih (insertKey w "a")

/-- Claim C2, counterexample.  The collection loop of `build_source_dir` does
    not deduplicate a popped document before expanding it, so on the one-node
    cyclic import graph (document "a" importing "a") the loop re-enqueues "a"
    forever and never terminates, contradicting the claim's inclusion of
    documents reachable along a cycle of import edges. -/
theorem collect_diverges_on_cycle : collectDiverges [("a", ["a"])] ["a"] [] :=
  fun fuel => collect_cycle_aux fuel []

/-- A successful association-list lookup locates a member of the list. -/
theorem assocLookup_mem {α : Type} {g : List (String × α)} {a : String} {v : α}
    (h : assocLookup g a = some v) : (a, v) ∈ g := by
  induction g with
  | nil => simp [assocLookup] at h
  | cons p rest ih =>
    obtain ⟨k, u⟩ := p
    rw [assocLookup] at h
    split at h
    · rename_i hk
      cases h
      subst hk
      exact List.mem_cons_self _ _
    · exact List.mem_cons_of_mem _ (ih h)

/-- A rank decreasing across the graph's edge lists decreases across
    `importsOf`. -/
theorem importsOf_rank {g : List (String × List String)} {rank : String → Nat}
    (h : ∀ p ∈ g, ∀ b ∈ p.2, rank b < rank p.1) :
    ∀ a b, b ∈ importsOf g a → rank b < rank a := by
  intro a b hb
  unfold importsOf at hb
  cases hl : assocLookup g a with
  | none => rw [hl] at hb; simp at hb
  | some l =>
    rw [hl] at hb
    simp only [Option.getD_some] at hb
    exact h (a, l) (assocLookup_mem hl) b hb

/-- Above a document's rank, the fuelled weight no longer depends on the
    fuel. -/
theorem wAux_stable {g : List (String × List String)} {rank : String → Nat}
    (H : ∀ a b, b ∈ importsOf g a → rank b < rank a) :
    ∀ r a, rank a ≤ r → ∀ m n, rank a ≤ m → rank a ≤ n →
      wAux g (m + 1) a = wAux g (n + 1) a := by
  intro r
  induction r with
  | zero =>
    intro a ha m n _ _
    have himp : importsOf g a = [] := by
      cases hi : importsOf g a with
      | nil => rfl
      | cons b bs =>
        have := H a b (by rw [hi]; exact List.mem_cons_self _ _)
        omega
    simp [wAux, himp]
  | succ r ih =>
    intro a ha m n hm hn
    by_cases hr : rank a ≤ r
    · exact ih a hr m n hm hn
    · rw [wAux, wAux]
      congr 1
      apply congrArg List.sum
      apply List.map_congr_left
      intro b hb
      have hrb : rank b < rank a := H a b hb
      have hm1 : 1 ≤ m := by omega
      have hn1 : 1 ≤ n := by omega
      calc wAux g m b = wAux g ((m - 1) + 1) b := by rw [Nat.sub_add_cancel hm1]
        _ = wAux g ((n - 1) + 1) b := ih b (by omega) (m - 1) (n - 1) (by omega) (by omega)
        _ = wAux g n b := by rw [Nat.sub_add_cancel hn1]

/-- The weight of a document exceeds the total weight of its imports by
    exactly one. -/
theorem wOf_rec {g : List (String × List String)} {rank : String → Nat}
    (H : ∀ a b, b ∈ importsOf g a → rank b < rank a) (a : String) :
    wOf g rank a = 1 + ((importsOf g a).map (wOf g rank)).sum := by
  rw [wOf, wAux]
  congr 1
  apply congrArg List.sum
  apply List.map_congr_left
  intro b hb
  have hrb : rank b < rank a := H a b hb
  have h1 : 1 ≤ rank a := by omega
  calc wAux g (rank a) b = wAux g ((rank a - 1) + 1) b := by rw [Nat.sub_add_cancel h1]
    _ = wAux g (rank b + 1) b :=
      wAux_stable H (rank a) b (by omega) (rank a - 1) (rank b) (by omega) (by omega)
    _ = wOf g rank b := rfl

/-- Any fuel exceeding the queue's weight finishes the collection loop: each
    iteration strictly decreases the total queue weight. -/
theorem collect_some_of_fuel {g : List (String × List String)} {rank : String → Nat}
    (H : ∀ a b, b ∈ importsOf g a → rank b < rank a) :
    ∀ fuel queue wdls, queueMeasure g rank queue < fuel →
      ∃ res, collectFuel g fuel queue wdls = some res := by
  intro fuel
  induction fuel with
  | zero => intro q w h; omega
  | succ n ih =>
    intro q w h
    cases hq : q.getLast? with
    | none =>
      refine ⟨w, ?_⟩
      rw [collectFuel, hq]
    | some a =>
      have hne : q ≠ [] := by
        intro e; subst e; simp at hq
      have hgl : q.getLast hne = a := by
        have := List.getLast?_eq_getLast q hne
        rw [hq] at this
        exact (Option.some.inj this).symm
      have hqe : q.dropLast ++ [a] = q := by
        rw [← hgl]; exact List.dropLast_append_getLast hne
      have hMq : queueMeasure g rank q = queueMeasure g rank q.dropLast + wOf g rank a := by
        conv_lhs => rw [← hqe]
        rw [queueMeasure, List.map_append, List.sum_append]
        rfl
      have hMnew : queueMeasure g rank (q.dropLast ++ importsOf g a) + 1 =
          queueMeasure g rank q := by
        rw [queueMeasure, List.map_append, List.sum_append, hMq, wOf_rec H a]
        rw [queueMeasure]
        omega
      obtain ⟨res, hres⟩ := ih (q.dropLast ++ importsOf g a) (insertKey w a) (by omega)
      refine ⟨res, ?_⟩
      rw [collectFuel, hq]
      exact hres

/-- Claim C2, amended.  For every import graph admitting a rank function under
    which every import edge strictly decreases (equivalently, every finite
    acyclic import graph — in particular any graph in which a document is
    imported from multiple places without a cycle), the document-closure
    collection loop of `build_source_dir` terminates from any starting queue.
    The loop owes this to the decreasing queue weight, not to deduplication:
    it expands a document once per time it is enqueued, and on a cyclic graph
    it does not terminate (see the counterexample). -/
theorem collect_terminates_acyclic (g : List (String × List String)) (rank : String → Nat)
    (h : ∀ p ∈ g, ∀ b ∈ p.2, rank b < rank p.1) (queue wdls : List String) :
    ∃ fuel res, collectFuel g fuel queue wdls = some res := by
  obtain ⟨res, hres⟩ := collect_some_of_fuel (importsOf_rank h)
    (queueMeasure g rank queue + 1) queue wdls (by omega)
  exact ⟨_, res, hres⟩

/-- Witness for claim C2's theorem: the diamond import graph (root importing
    "b" and "c", each importing "d") has a strictly decreasing rank, so the
    loop terminates on it even though "d" is imported from two places. -/
theorem collect_terminates_acyclic_witness :
    ∃ fuel res,
      collectFuel [("r", ["b", "c"]), ("b", ["d"]), ("c", ["d"]), ("d", [])]
        fuel ["r"] [] = some res :=
  collect_terminates_acyclic _ (fun a => if a = "r" then 2 else if a = "d" then 0 else 1)
    (by decide) ["r"] []

end MiniwdlZip

namespace MiniwdlZip

/-- Setting one list entry leaves every other position unchanged. -/
theorem get?_set_ne {α : Type} (l : List α) {i j : Nat} (v : α) (h : i ≠ j) :
    (l.set i v).get? j = l.get? j := by
  rw [List.get?_eq_getElem?, List.get?_eq_getElem?, List.getElem?_set_ne h]

/-- When no line read during the span scan contains the pattern, the scan
    either raises (IndexError) or finishes with `found` still false. -/
theorem scanGo_none_found (pat newPat : List Char) :
    ∀ (steps : Nat) (lines : List String) (lineno : Nat),
      (∀ i, lineno ≤ i → i < lineno + steps → ∀ line, lines.get? i = some line →
        containsSub pat line.data = false) →
      scanGo pat newPat steps lines false lineno = none ∨
      ∃ l2, scanGo pat newPat steps lines false lineno = some (l2, false) := by
  intro steps
  induction steps with
  | zero => intro lines lineno _; exact Or.inr ⟨lines, rfl⟩
  | succ n ih =>
    intro lines lineno hmiss
    rw [scanGo]
    cases hl : lines.get? lineno with
    | none => exact Or.inl rfl
    | some line =>
      have hc : containsSub pat line.data = false :=
        hmiss lineno (le_refl _) (by omega) line hl
      simp only [hc, Bool.or_false]
      have hnext : ∀ i, lineno + 1 ≤ i → i < (lineno + 1) + n → ∀ l,
          (if ofChars (replaceChars pat newPat line.data) = line then lines
           else lines.set lineno (ofChars (replaceChars pat newPat line.data))).get? i
            = some l →
          containsSub pat l.data = false := by
        intro i h1 h2 l hget
        split at hget
        · exact hmiss i (by omega) (by omega) l hget
        · rw [get?_set_ne lines _ (by omega : lineno ≠ i)] at hget
          exact hmiss i (by omega) (by omega) l hget
      exact ih _ (lineno + 1) hnext

/-- Claim C4.  Whenever `rewrite_imports` reaches an import edge (the earlier
    edges `pre` having produced the intermediate line list `lines`) and no
    line within the edge's recorded position span contains the edge's literal
    URI delimited by double quotes, the whole call fails (the `assert found`
    raises AssertionError, or the stale span raises IndexError first) instead
    of returning normally: the edge is never silently skipped. -/
theorem rewrite_imports_fails_on_missing_uri
    (doc : Document) (zip_paths : List (String × String))
    (pre post : List Import) (imp : Import) (lines : List String)
    (hsplit : doc.imports = pre ++ imp :: post)
    (hpre : pre.foldlM (fun ls i => processImport zip_paths doc.abspath ls i)
      doc.source_lines = some lines)
    (hmiss : ∀ i, imp.pos.line - 1 ≤ i → i < imp.pos.end_line → ∀ line,
      lines.get? i = some line →
      containsSub ('"' :: imp.uri.data ++ ['"']) line.data = false) :
    rewrite_imports doc zip_paths = none := by
  rw [rewrite_imports, hsplit, List.foldlM_append, hpre]
  show (imp :: post).foldlM _ lines = none
  rw [List.foldlM_cons]
  have hproc : processImport zip_paths doc.abspath lines imp = none := by
    rw [processImport]
    cases h1 : assocLookup zip_paths imp.doc_abspath with
    | none => rfl
    | some zp_imp =>
      cases h2 : assocLookup zip_paths doc.abspath with
      | none => rfl
      | some zp_doc =>
        have hscan := scanGo_none_found ('"' :: imp.uri.data ++ ['"'])
          ('"' :: (relpath zp_imp (dirname zp_doc)).data ++ ['"'])
          (imp.pos.end_line - (imp.pos.line - 1)) lines (imp.pos.line - 1)
          (by intro i hi1 hi2 line hget; exact hmiss i hi1 (by omega) line hget)
        dsimp only
        rcases hscan with h | ⟨l2, h⟩
        · rw [h]
        · rw [h]; rfl
  rw [hproc]
  rfl

/-- Witness for claim C4's theorem: a one-line document whose recorded span
    does not contain the edge's quoted URI "b" makes `rewrite_imports` raise. -/
theorem rewrite_imports_fails_witness :
    rewrite_imports ⟨"/a/main.wdl", ["see \"zzz\" as b"], [⟨"b", ⟨1, 1⟩, "/a/b.wdl"⟩]⟩
      [("/a/main.wdl", "main.wdl"), ("/a/b.wdl", "b.wdl")] = none := by
  refine rewrite_imports_fails_on_missing_uri
    ⟨"/a/main.wdl", ["see \"zzz\" as b"], [⟨"b", ⟨1, 1⟩, "/a/b.wdl"⟩]⟩
    [("/a/main.wdl", "main.wdl"), ("/a/b.wdl", "b.wdl")]
    [] [] ⟨"b", ⟨1, 1⟩, "/a/b.wdl"⟩ ["see \"zzz\" as b"] rfl rfl ?_
  intro i h1 h2 line hget
  dsimp only at h1 h2
  have hi : i = 0 := by omega
  subst hi
  have hl : line = "see \"zzz\" as b" := by
    simpa using hget.symm
  subst hl
  decide

/-- The span scan changes no line outside `[lineno, lineno + steps)` and
    preserves the number of lines. -/
theorem scanGo_preserves (pat newPat : List Char) :
    ∀ (steps : Nat) (lines : List String) (found : Bool) (lineno : Nat)
      (res : List String) (b : Bool),
      scanGo pat newPat steps lines found lineno = some (res, b) →
      res.length = lines.length ∧
      ∀ i, i < lineno ∨ lineno + steps ≤ i → res.get? i = lines.get? i := by
  intro steps
  induction steps with
  | zero =>
    intro lines found lineno res b h
    rw [scanGo] at h
    cases h
    exact ⟨rfl, fun i _ => rfl⟩
  | succ n ih =>
    intro lines found lineno res b h
    rw [scanGo] at h
    cases hl : lines.get? lineno with
    | none => rw [hl] at h; cases h
    | some line =>
      rw [hl] at h
      dsimp only at h
      by_cases he : ofChars (replaceChars pat newPat line.data) = line
      · rw [if_pos he] at h
        obtain ⟨hlen, hout⟩ := ih _ _ _ _ _ h
        exact ⟨hlen, fun i hi => hout i (by omega)⟩
      · rw [if_neg he] at h
        obtain ⟨hlen, hout⟩ := ih _ _ _ _ _ h
        constructor
        · rw [hlen]; simp
        · intro i hi
          rw [hout i (by omega)]
          exact get?_set_ne lines _ (by omega)

/-- Processing one import edge changes no line outside that edge's span and
    preserves the number of lines. -/
theorem processImport_preserves (zip_paths : List (String × String)) (da : String)
    (lines : List String) (imp : Import) (res : List String)
    (h : processImport zip_paths da lines imp = some res) :
    res.length = lines.length ∧
    ∀ i, i < imp.pos.line - 1 ∨ imp.pos.end_line ≤ i → res.get? i = lines.get? i := by
  rw [processImport] at h
  cases h1 : assocLookup zip_paths imp.doc_abspath with
  | none => rw [h1] at h; cases h
  | some zp_imp =>
    cases h2 : assocLookup zip_paths da with
    | none => rw [h1, h2] at h; cases h
    | some zp_doc =>
      rw [h1, h2] at h
      dsimp only at h
      cases hs : scanGo ('"' :: imp.uri.data ++ ['"'])
          ('"' :: (relpath zp_imp (dirname zp_doc)).data ++ ['"'])
          (imp.pos.end_line - (imp.pos.line - 1)) lines false (imp.pos.line - 1) with
      | none => rw [hs] at h; cases h
      | some p =>
        obtain ⟨l2, found⟩ := p
        rw [hs] at h
        cases found with
        | false => cases h
        | true =>
          have hr : l2 = res := by
            simpa using h
          subst hr
          obtain ⟨hlen, hout⟩ := scanGo_preserves _ _ _ _ _ _ _ _ hs
          exact ⟨hlen, fun i hi => hout i (by omega)⟩

/-- The fold over the import edges changes no line outside the union of the
    spans and preserves the number of lines. -/
theorem rewriteFold_preserves (zip_paths : List (String × String)) (da : String) :
    ∀ (imps : List Import) (lines res : List String),
      imps.foldlM (fun ls i => processImport zip_paths da ls i) lines = some res →
      res.length = lines.length ∧
      ∀ i, outsideSpans imps i → res.get? i = lines.get? i := by
  intro imps
  induction imps with
  | nil =>
    intro lines res h
    cases h
    exact ⟨rfl, fun _ _ => rfl⟩
  | cons imp rest ih =>
    intro lines res h
    rw [List.foldlM_cons] at h
    cases hp : processImport zip_paths da lines imp with
    | none => rw [hp] at h; cases h
    | some mid =>
      rw [hp] at h
      obtain ⟨hlen1, hout1⟩ := processImport_preserves _ _ _ _ _ hp
      obtain ⟨hlen2, hout2⟩ := ih mid res h
      refine ⟨hlen2.trans hlen1, fun i hi => ?_⟩
      have hd : outsideSpans rest i := fun im hm => hi im (List.mem_cons_of_mem _ hm)
      rw [hout2 i hd, hout1 i (hi imp (List.mem_cons_self _ _))]

/-- Claim C7.  When `rewrite_imports` returns a line list, that list is a new
    sequence of the same length as the document's source lines (which, being
    rewritten on a copy, are never mutated — immediate in this pure model),
    and every returned line whose index lies outside every import edge's
    recorded position span is character-for-character the original line. -/
theorem rewrite_imports_frame (doc : Document) (zip_paths : List (String × String))
    (res : List String) (h : rewrite_imports doc zip_paths = some res) :
    res.length = doc.source_lines.length ∧
    ∀ i, outsideSpans doc.imports i → res.get? i = doc.source_lines.get? i :=
  rewriteFold_preserves zip_paths doc.abspath doc.imports doc.source_lines res h

/-- Witness for claim C7's theorem: rewriting a three-line document whose
    single import edge spans only line 2 leaves lines 1 and 3 untouched. -/
theorem rewrite_imports_frame_witness :
    (["version 1.0", "see \"b.wdl\" stmt", "tail line"] : List String).length = 3 ∧
    (["version 1.0", "see \"b.wdl\" stmt", "tail line"] : List String).get? 2 =
      some "tail line" := by
  have h := rewrite_imports_frame
    ⟨"/a/main.wdl", ["version 1.0", "see \"b\" stmt", "tail line"],
      [⟨"b", ⟨2, 2⟩, "/a/b.wdl"⟩]⟩
    [("/a/main.wdl", "main.wdl"), ("/a/b.wdl", "b.wdl")]
    ["version 1.0", "see \"b.wdl\" stmt", "tail line"]
    (by decide)
  exact ⟨h.1, h.2 2 (by decide)⟩

end MiniwdlZip

namespace MiniwdlZip

/-- Claim C5, amended.  For every schema-valid manifest, if the resolved
    `mainWorkflowURL` is not an existing regular file or does not resolve
    strictly inside the manifest's directory, or if the first `inputFileURLs`
    entry is a nonempty string whose resolution likewise violates the safety
    check, then `unpack` raises
    `InputError("MANIFEST.json refers to missing or invalid files ...")`
    and yields no handle.  (The nonemptiness proviso is forced by the
    counterexample: Python's `if input_file` skips the check for "".) -/
theorem unpack_rejects_invalid_files (fs : List String) (archive_fn dn : String)
    (fields : List (String × JValue)) (mw : String)
    (hmw : jGet fields "mainWorkflowURL" = some (JValue.str mw))
    (hviol : (¬ (isfile fs (pyJoin dn mw) = true ∧
        path_really_within (pyJoin dn mw) dn = true)) ∨
      (∃ s, firstInputURL fields = some s ∧ s.data ≠ [] ∧
        ¬ (isfile fs (pyJoin dn s) = true ∧ path_really_within (pyJoin dn s) dn = true))) :
    unpack fs archive_fn dn (JValue.obj fields) =
      Except.error ("MANIFEST.json refers to missing or invalid files in " ++ archive_fn) := by
  rw [unpack, hmw]
  dsimp only
  rcases hviol with hmain | ⟨s, hs, hne, hbad⟩
  · have hcond : (! (isfile fs (pyJoin dn mw) && path_really_within (pyJoin dn mw) dn)) = true := by
      cases hA : isfile fs (pyJoin dn mw) <;>
        cases hB : path_really_within (pyJoin dn mw) dn <;> simp_all
    rw [hcond]
    simp
  · rw [hs]
    dsimp only
    have hne' : ¬ s.data = [] := hne
    rw [if_neg hne']
    dsimp only
    have hcond : (! (isfile fs (pyJoin dn s) && path_really_within (pyJoin dn s) dn)) = true := by
      cases hA : isfile fs (pyJoin dn s) <;>
        cases hB : path_really_within (pyJoin dn s) dn <;> simp_all
    rw [hcond]
    simp

/-- Witness for claim C5's theorem: the spec's traversal-rejection scenario.
    A manifest whose `mainWorkflowURL` is "../../etc/passwd" resolves outside
    the manifest directory "/x" (and to no regular file), so `unpack` reports
    the Input error and yields no handle. -/
theorem unpack_rejects_traversal_witness :
    unpack [] "source.zip" "/x"
      (JValue.obj [("mainWorkflowURL", JValue.str "../../etc/passwd")]) =
      Except.error "MANIFEST.json refers to missing or invalid files in source.zip" :=
  unpack_rejects_invalid_files [] "source.zip" "/x"
    [("mainWorkflowURL", JValue.str "../../etc/passwd")] "../../etc/passwd"
    rfl (Or.inl (by decide))

/-- Claim C5, counterexample.  A manifest whose first `inputFileURLs` entry is
    the empty string: its resolution `os.path.join(dn, "")` is the directory
    itself, not an existing regular file, so the claim's premise holds, yet
    Python's `if input_file` treats "" as absent, the safety check is skipped,
    and `unpack` yields a handle instead of raising. -/
theorem unpack_accepts_empty_input_url :
    unpack ["/x/main.wdl"] "a.zip" "/x"
      (JValue.obj [("mainWorkflowURL", JValue.str "main.wdl"),
                   ("inputFileURLs", JValue.arr [JValue.str ""])]) =
      Except.ok ⟨"/x", "/x/main.wdl", none⟩ ∧
    isfile ["/x/main.wdl"] (pyJoin "/x" "") = false :=
  ⟨rfl, by decide⟩

/-- Claim C8.  A manifest that is a JSON object containing only a string
    `mainWorkflowURL`, whose referenced main document passes the safety
    check, unpacks to a handle whose `input_file` field is None. -/
theorem unpack_minimal_manifest (fs : List String) (archive_fn dn mw : String)
    (hfile : isfile fs (pyJoin dn mw) = true)
    (hwithin : path_really_within (pyJoin dn mw) dn = true) :
    unpack fs archive_fn dn (JValue.obj [("mainWorkflowURL", JValue.str mw)]) =
      Except.ok ⟨dn, pyJoin dn mw, none⟩ := by
  have h1 : jGet [("mainWorkflowURL", JValue.str mw)] "mainWorkflowURL" =
      some (JValue.str mw) := rfl
  rw [unpack, h1]
  dsimp only
  have h2 : firstInputURL [("mainWorkflowURL", JValue.str mw)] = none := rfl
  rw [h2]
  rw [hfile, hwithin]
  simp

/-- Witness for claim C8's theorem: the minimal manifest over a present main
    document yields the handle with `input_file = none`. -/
theorem unpack_minimal_manifest_witness :
    unpack ["/x/main.wdl"] "a.zip" "/x"
      (JValue.obj [("mainWorkflowURL", JValue.str "main.wdl")]) =
      Except.ok ⟨"/x", "/x/main.wdl", none⟩ :=
  unpack_minimal_manifest ["/x/main.wdl"] "a.zip" "/x" "main.wdl"
    (by decide) (by decide)

end MiniwdlZip

namespace MiniwdlZip

/-- A list is a leading segment of itself followed by anything. -/
theorem listIsPref_append_self : ∀ (a b : List Char), listIsPref a (a ++ b) = true := by
  intro a
  induction a with
  | nil => intro b; rfl
  | cons c rest ih => intro b; simp [listIsPref, ih]

/-- A string starts with any of its leading concatenants. -/
theorem pyStartswith_append (x y : String) : pyStartswith (x ++ y) x = true := by
  rw [pyStartswith, String.data_append]
  exact listIsPref_append_self _ _

/-- Temporary-directory cleanup does not affect the presence of a path
    outside both temporary trees. -/
theorem cleanup_mem (zip_dir tmp_dir archive : String) (files : List String)
    (hz : pyStartswith archive (zip_dir ++ "/") = false)
    (ht : pyStartswith archive (tmp_dir ++ "/") = false) :
    (archive ∈ cleanupTemps zip_dir tmp_dir files ↔ archive ∈ files) := by
  rw [cleanupTemps]
  constructor
  · intro h
    exact (List.mem_filter.mp h).1
  · intro h
    refine List.mem_filter.mpr ⟨h, ?_⟩
    simp [hz, ht]

/-- Writing some other path does not affect the archive path's presence. -/
theorem mem_applyOp_write (archive p : String) (files : List String) (hne : p ≠ archive) :
    (archive ∈ applyOp files (FsOp.write p) ↔ archive ∈ files) := by
  rw [applyOp]
  split
  · exact Iff.rfl
  · simp [Ne.symm hne]

/-- A write makes its path present. -/
theorem mem_write (p : String) (files : List String) :
    p ∈ applyOp files (FsOp.write p) := by
  rw [applyOp]
  split
  · assumption
  · simp

/-- A run of writes to other paths leaves the archive path's presence
    unchanged. -/
theorem foldl_writes_mem (archive : String) :
    ∀ (ops : List FsOp) (files : List String),
      (∀ op ∈ ops, ∃ p, op = FsOp.write p ∧ p ≠ archive) →
      (archive ∈ ops.foldl applyOp files ↔ archive ∈ files) := by
  intro ops
  induction ops with
  | nil => intro files _; exact Iff.rfl
  | cons op rest ih =>
    intro files hops
    obtain ⟨p, hop, hne⟩ := hops op (List.mem_cons_self _ _)
    subst hop
    rw [List.foldl_cons]
    rw [ih _ (fun o ho => hops o (List.mem_cons_of_mem _ ho))]
    exact mem_applyOp_write archive p files hne

/-- The operation sequence of `build` is its staging writes followed by the
    single final rename to the destination. -/
theorem buildOps_split (zip_dir tmp_dir : String) (relPaths : List String)
    (withInputs : Bool) (base archive : String) :
    buildOps zip_dir tmp_dir relPaths withInputs base archive =
      ((relPaths.map (fun r => FsOp.write (zip_dir ++ "/" ++ r)))
        ++ (if withInputs then [FsOp.write (zip_dir ++ "/" ++ "default_input.json")] else [])
        ++ [FsOp.write (zip_dir ++ "/" ++ "MANIFEST.json"),
            FsOp.write (tmp_dir ++ "/" ++ (base ++ ".zip"))])
      ++ [FsOp.rename (tmp_dir ++ "/" ++ (base ++ ".zip")) archive] := by
  rw [buildOps]
  simp [List.append_assoc]

/-- Every operation before the final rename is a write into one of the two
    temporary directories, hence not to the destination path. -/
theorem initOps_writes (zip_dir tmp_dir : String) (relPaths : List String)
    (withInputs : Bool) (base archive : String)
    (hz : pyStartswith archive (zip_dir ++ "/") = false)
    (ht : pyStartswith archive (tmp_dir ++ "/") = false) :
    ∀ op ∈ ((relPaths.map (fun r => FsOp.write (zip_dir ++ "/" ++ r)))
        ++ (if withInputs then [FsOp.write (zip_dir ++ "/" ++ "default_input.json")] else [])
        ++ [FsOp.write (zip_dir ++ "/" ++ "MANIFEST.json"),
            FsOp.write (tmp_dir ++ "/" ++ (base ++ ".zip"))]),
      ∃ p, op = FsOp.write p ∧ p ≠ archive := by
  intro op hop
  have hzp : ∀ r : String, (zip_dir ++ "/" ++ r) ≠ archive := by
    intro r he
    have := pyStartswith_append (zip_dir ++ "/") r
    rw [he] at this
    rw [hz] at this
    cases this
  have htp : ∀ r : String, (tmp_dir ++ "/" ++ r) ≠ archive := by
    intro r he
    have := pyStartswith_append (tmp_dir ++ "/") r
    rw [he] at this
    rw [ht] at this
    cases this
  rcases List.mem_append.mp hop with h12 | h34
  · rcases List.mem_append.mp h12 with h1 | h2
    · obtain ⟨r, _, hr⟩ := List.mem_map.mp h1
      exact ⟨zip_dir ++ "/" ++ r, hr.symm, hzp r⟩
    · split at h2
      · have := List.mem_singleton.mp h2
        exact ⟨_, this, hzp _⟩
      · cases h2
  · simp only [List.mem_cons, List.mem_singleton, List.not_mem_nil, or_false] at h34
    rcases h34 with h5 | h6
    · exact ⟨_, h5, hzp _⟩
    · exact ⟨_, h6, htp _⟩

/-- Claim C6, amended.  For any invocation of `build` whose fresh temporary
    directories do not contain the destination path: on success the archive
    file exists at the destination (published by the final rename); on a
    failure at any point before the final rename, the destination path's
    state is exactly what it was before the call -- in particular, if nothing
    existed there before the call, nothing exists there afterward.  (The
    original claim's "no file exists at that path afterward" fails when a
    file already existed at the destination before the failed call; see the
    counterexample.) -/
theorem build_dest_atomicity (zip_dir tmp_dir : String) (relPaths : List String)
    (withInputs : Bool) (base archive : String) (failAt : Option Nat) (files0 : List String)
    (hz : pyStartswith archive (zip_dir ++ "/") = false)
    (ht : pyStartswith archive (tmp_dir ++ "/") = false)
    (hk : failAt = none ∨ ∃ k, failAt = some k ∧
      k < (buildOps zip_dir tmp_dir relPaths withInputs base archive).length) :
    ((runBuild zip_dir tmp_dir relPaths withInputs base archive failAt files0).fst = true →
      archive ∈ (runBuild zip_dir tmp_dir relPaths withInputs base archive failAt files0).snd) ∧
    ((runBuild zip_dir tmp_dir relPaths withInputs base archive failAt files0).fst = false →
      (archive ∈ (runBuild zip_dir tmp_dir relPaths withInputs base archive failAt files0).snd ↔
        archive ∈ files0)) := by
  set initOps := (relPaths.map (fun r => FsOp.write (zip_dir ++ "/" ++ r)))
        ++ (if withInputs then [FsOp.write (zip_dir ++ "/" ++ "default_input.json")] else [])
        ++ [FsOp.write (zip_dir ++ "/" ++ "MANIFEST.json"),
            FsOp.write (tmp_dir ++ "/" ++ (base ++ ".zip"))] with hinit
  have hsplit := buildOps_split zip_dir tmp_dir relPaths withInputs base archive
  have hwrites := initOps_writes zip_dir tmp_dir relPaths withInputs base archive hz ht
  cases failAt with
  | none =>
    refine ⟨fun _ => ?_, fun hf => by cases hf⟩
    show archive ∈ cleanupTemps zip_dir tmp_dir
      ((buildOps zip_dir tmp_dir relPaths withInputs base archive).foldl applyOp files0)
    rw [cleanup_mem _ _ _ _ hz ht, hsplit, List.foldl_append]
    -- last op is the rename; the tmp zip file was written by the last init op
    have htmem : (tmp_dir ++ "/" ++ (base ++ ".zip")) ∈ initOps.foldl applyOp files0 := by
      rw [hinit]
      rw [List.foldl_append, List.foldl_append]
      show _ ∈ List.foldl applyOp _ [_, _]
      rw [List.foldl_cons, List.foldl_cons, List.foldl_nil]
      exact mem_write _ _
    rw [List.foldl_cons, List.foldl_nil, applyOp]
    rw [if_pos htmem]
    simp
  | some k =>
    rcases hk with h | ⟨k', hk', hlen⟩
    · cases h
    · cases hk'
      refine ⟨fun ht' => (nomatch ht'), fun _ => ?_⟩
      show archive ∈ cleanupTemps zip_dir tmp_dir
        (((buildOps zip_dir tmp_dir relPaths withInputs base archive).take k).foldl
          applyOp files0) ↔ archive ∈ files0
      rw [cleanup_mem _ _ _ _ hz ht]
      have hklen : k ≤ initOps.length := by
        rw [hsplit, List.length_append] at hlen
        simp only [List.length_singleton] at hlen
        rw [← hinit] at hlen
        omega
      have htake : (buildOps zip_dir tmp_dir relPaths withInputs base archive).take k =
          initOps.take k := by
        rw [hsplit]
        exact List.take_append_of_le_length hklen
      rw [htake]
      exact foldl_writes_mem archive _ files0
        (fun op ho => hwrites op (List.take_subset _ _ ho))

/-- Witness for claim C6's theorem: a successful build publishes the archive
    at the destination. -/
theorem build_dest_atomicity_witness :
    "/out/a.zip" ∈
      (runBuild "/t/z" "/t/t" ["main.wdl"] false "main.wdl" "/out/a.zip" none []).snd :=
  (build_dest_atomicity "/t/z" "/t/t" ["main.wdl"] false "main.wdl" "/out/a.zip" none []
    (by decide) (by decide) (Or.inl rfl)).1 rfl

/-- Claim C6, counterexample.  When a file already exists at the destination
    path and the build fails after staging but before the final rename, the
    invocation fails yet a file (the pre-existing one) still exists at the
    destination, so the claim's failure disjunct "no file exists at that path
    afterward" is false for this invocation. -/
theorem build_preexisting_dest_after_failure :
    runBuild "/t/z" "/t/t" ["main.wdl"] false "main.wdl" "/out/a.zip" (some 3)
      ["/out/a.zip"] = (false, ["/out/a.zip"]) := by decide

end MiniwdlZip

namespace MiniwdlZip

/-- A Boolean leading-segment test holds exactly when the string splits. -/
theorem listIsPref_iff (p s : List Char) : listIsPref p s = true ↔ ∃ t, s = p ++ t := by
  induction p generalizing s with
  | nil => simp [listIsPref]
  | cons c rest ih =>
    cases s with
    | nil =>
      simp [listIsPref]
    | cons d ds =>
      rw [listIsPref]
      simp only [Bool.and_eq_true, decide_eq_true_eq]
      constructor
      · rintro ⟨rfl, h⟩
        obtain ⟨t, rfl⟩ := (ih ds).mp h
        exact ⟨t, rfl⟩
      · rintro ⟨t, ht⟩
        cases ht
        exact ⟨rfl, (ih _).mpr ⟨t, rfl⟩⟩

/-- Two slash-free components followed by separator-headed (or empty) tails
    agree as soon as their concatenations agree. -/
theorem comp_cancel :
    ∀ (d c xs ys : List Char), slashFree d → slashFree c →
      d ++ xs = c ++ ys → headSlash xs → headSlash ys → d = c ∧ xs = ys := by
  intro d
  induction d with
  | nil =>
    intro c xs ys _ hc he hx hy
    cases c with
    | nil => exact ⟨rfl, he⟩
    | cons e c' =>
      exfalso
      rcases hx with rfl | ⟨u, rfl⟩
      · rcases hy with rfl | ⟨u', rfl⟩ <;> simp_all
      · have : e = '/' := by
          have := congrArg (fun l => l.head?) he
          simpa using this.symm
        exact hc e (List.mem_cons_self _ _) this
  | cons e d' ih =>
    intro c xs ys hd hc he hx hy
    cases c with
    | nil =>
      exfalso
      rcases hy with rfl | ⟨u', rfl⟩
      · simp_all
      · have : e = '/' := by
          have := congrArg (fun l => l.head?) he
          simpa using this
        exact hd e (List.mem_cons_self _ _) this
    | cons f c' =>
      have h1 : e = f := by
        have := congrArg (fun l => l.head?) he
        simpa using this
      subst h1
      have h2 : d' ++ xs = c' ++ ys := by
        have := congrArg List.tail he
        simpa using this
      obtain ⟨hdc, hxy⟩ := ih c' xs ys
        (fun x hxm => hd x (List.mem_cons_of_mem _ hxm))
        (fun x hxm => hc x (List.mem_cons_of_mem _ hxm)) h2 hx hy
      exact ⟨by rw [hdc], hxy⟩

/-- Path characters of concatenated component lists. -/
theorem fileOfComps_append (xs ys : List (List Char)) :
    fileOfComps (xs ++ ys) = fileOfComps xs ++ fileOfComps ys := by
  induction xs with
  | nil => rfl
  | cons c rest ih => simp [fileOfComps, ih]

/-- A canonical file path is empty or starts at a separator. -/
theorem fileOfComps_headSlash (cs : List (List Char)) : headSlash (fileOfComps cs) := by
  cases cs with
  | nil => exact Or.inl rfl
  | cons c rest => exact Or.inr ⟨c ++ fileOfComps rest, rfl⟩

/-- Only the empty component list yields empty path characters. -/
theorem fileOfComps_eq_nil (cs : List (List Char)) : fileOfComps cs = [] ↔ cs = [] := by
  cases cs with
  | nil => simp [fileOfComps]
  | cons c rest => simp [fileOfComps]

/-- Canonical path characters determine the component list. -/
theorem fileOfComps_inj :
    ∀ (ra rb : List (List Char)), (∀ c ∈ ra, slashFree c) → (∀ c ∈ rb, slashFree c) →
      fileOfComps ra = fileOfComps rb → ra = rb := by
  intro ra
  induction ra with
  | nil =>
    intro rb _ _ h
    have := (fileOfComps_eq_nil rb).mp h.symm
    rw [this]
  | cons c ra' ih =>
    intro rb hra hrb h
    cases rb with
    | nil => simp [fileOfComps] at h
    | cons d rb' =>
      rw [fileOfComps, fileOfComps] at h
      have h2 : c ++ fileOfComps ra' = d ++ fileOfComps rb' := by
        have := congrArg List.tail h
        simpa using this
      obtain ⟨hcd, hff⟩ := comp_cancel c d (fileOfComps ra') (fileOfComps rb')
        (hra c (List.mem_cons_self _ _)) (hrb d (List.mem_cons_self _ _)) h2
        (fileOfComps_headSlash ra') (fileOfComps_headSlash rb')
      rw [hcd, ih rb' (fun x hx => hra x (List.mem_cons_of_mem _ hx))
        (fun x hx => hrb x (List.mem_cons_of_mem _ hx)) hff]

/-- A canonical file path extending a canonical directory identity (with its
    trailing slash) does so by whole components. -/
theorem dir_pref_file :
    ∀ (dc : List (List Char)) (csa : List (List Char)) (t : List Char),
      goodComps dc → goodComps csa →
      dirOfComps dc ++ t = fileOfComps csa →
      ∃ rest, csa = dc ++ rest ∧ fileOfComps rest = '/' :: t := by
  intro dc
  induction dc with
  | nil =>
    intro csa t _ _ h
    refine ⟨csa, rfl, ?_⟩
    rw [← h]
    rfl
  | cons d dc' ih =>
    intro csa t hgd hga h
    cases csa with
    | nil =>
      exfalso
      rw [fileOfComps] at h
      have : dirOfComps (d :: dc') = [] := by
        rcases List.append_eq_nil.mp h with ⟨h1, _⟩
        exact h1
      rw [dirOfComps, fileOfComps] at this
      simp at this
    | cons c csa' =>
      rw [dirOfComps, fileOfComps] at h
      rw [fileOfComps] at h
      -- h : ('/' :: d ++ fileOfComps dc') ++ ['/'] ++ t = '/' :: c ++ fileOfComps csa'
      have h2 : d ++ (fileOfComps dc' ++ '/' :: t) = c ++ fileOfComps csa' := by
        have := congrArg List.tail h
        simpa [List.append_assoc] using this
      have hxs : headSlash (fileOfComps dc' ++ '/' :: t) := by
        rcases fileOfComps_headSlash dc' with hf | ⟨u, hf⟩
        · rw [hf]; exact Or.inr ⟨t, rfl⟩
        · rw [hf]; exact Or.inr ⟨u ++ '/' :: t, rfl⟩
      obtain ⟨hdc, hff⟩ := comp_cancel d c (fileOfComps dc' ++ '/' :: t) (fileOfComps csa')
        (hgd d (List.mem_cons_self _ _)).2.1
        (hga c (List.mem_cons_self _ _)).2.1
        h2 hxs (fileOfComps_headSlash csa')
      have hrec : dirOfComps dc' ++ t = fileOfComps csa' := by
        rw [dirOfComps, List.append_assoc]
        exact hff
      obtain ⟨rest, hcs, hfr⟩ := ih csa' t
        (fun x hx => hgd x (List.mem_cons_of_mem _ hx))
        (fun x hx => hga x (List.mem_cons_of_mem _ hx)) hrec
      refine ⟨rest, ?_, hfr⟩
      rw [hcs, hdc]
      rfl

end MiniwdlZip

namespace MiniwdlZip

/-- Splitting never returns an empty field list. -/
theorem splitSlash_ne_nil (l : List Char) : splitSlash l ≠ [] := by
  cases l with
  | nil => simp [splitSlash]
  | cons c rest =>
    rw [splitSlash]
    split
    · simp
    · split <;> simp

/-- A slash-free run splits into one field. -/
theorem splitSlash_slashFree (l : List Char) (h : slashFree l) : splitSlash l = [l] := by
  induction l with
  | nil => rfl
  | cons c rest ih =>
    rw [splitSlash]
    rw [if_neg (h c (List.mem_cons_self _ _))]
    rw [ih (fun x hx => h x (List.mem_cons_of_mem _ hx))]

/-- A slash-free run merges into the first field of the rest's split. -/
theorem splitSlash_comp_append (c : List Char) (r : List Char) (hc : slashFree c) :
    ∀ g gs, splitSlash r = g :: gs → splitSlash (c ++ r) = (c ++ g) :: gs := by
  induction c with
  | nil => intro g gs h; simpa using h
  | cons e c' ih =>
    intro g gs h
    show splitSlash (e :: (c' ++ r)) = _
    rw [splitSlash]
    rw [if_neg (hc e (List.mem_cons_self _ _))]
    rw [ih (fun x hx => hc x (List.mem_cons_of_mem _ hx)) g gs h]
    rfl

/-- A leading separator contributes an empty first field. -/
theorem splitSlash_slash_cons (r : List Char) :
    splitSlash ('/' :: r) = [] :: splitSlash r := by
  rw [splitSlash]
  rw [if_pos rfl]

/-- Splitting a canonical file path yields an empty field followed by the
    components. -/
theorem splitSlash_file (cs : List (List Char)) (hg : goodComps cs) (hne : cs ≠ []) :
    splitSlash (fileOfComps cs) = [] :: cs := by
  induction cs with
  | nil => exact absurd rfl hne
  | cons c cs' ih =>
    rw [fileOfComps]
    show splitSlash ('/' :: (c ++ fileOfComps cs')) = _
    rw [splitSlash_slash_cons]
    cases hcs : cs' with
    | nil =>
      subst hcs
      show [] :: splitSlash (c ++ fileOfComps []) = _
      rw [show fileOfComps [] = [] from rfl, List.append_nil]
      rw [splitSlash_slashFree c (hg c (List.mem_cons_self _ _)).2.1]
    | cons c2 cs'' =>
      subst hcs
      have ih2 := ih (fun x hx => hg x (List.mem_cons_of_mem _ hx)) (List.cons_ne_nil _ _)
      rw [splitSlash_comp_append c (fileOfComps (c2 :: cs''))
        (hg c (List.mem_cons_self _ _)).2.1 [] (c2 :: cs'') ih2]
      simp

/-- A trailing separator contributes an empty last field. -/
theorem splitSlash_append_slash (l : List Char) :
    splitSlash (l ++ ['/']) = splitSlash l ++ [[]] := by
  induction l with
  | nil => rfl
  | cons c rest ih =>
    by_cases hc : c = '/'
    · subst hc
      show splitSlash ('/' :: (rest ++ ['/'])) = _
      rw [splitSlash_slash_cons, ih, splitSlash_slash_cons]
      rfl
    · show splitSlash (c :: (rest ++ ['/'])) = _
      rw [splitSlash]
      rw [if_neg hc]
      rw [splitSlash]
      rw [if_neg hc]
      cases hs : splitSlash rest with
      | nil => exact absurd hs (splitSlash_ne_nil rest)
      | cons g gs =>
        rw [hs] at ih
        rw [ih]
        rfl

/-- On fields that are empty or well-formed components, the normpath loop
    appends exactly the nonempty fields. -/
theorem normLoop_filter (b : Bool) :
    ∀ (cs : List (List Char)) (acc : List (List Char)),
      (∀ c ∈ cs, c = [] ∨ goodComp c) →
      normLoop b acc cs = acc ++ cs.filter (fun c => ¬ c = []) := by
  intro cs
  induction cs with
  | nil => intro acc _; simp [normLoop]
  | cons comp rest ih =>
    intro acc hcs
    rcases hcs comp (List.mem_cons_self _ _) with hemp | hgood
    · subst hemp
      rw [normLoop]
      rw [if_pos (Or.inl rfl)]
      rw [ih acc (fun c hc => hcs c (List.mem_cons_of_mem _ hc))]
      simp [List.filter]
    · rw [normLoop]
      rw [if_neg (by push_neg; exact ⟨hgood.1, fun h => absurd h hgood.2.2.1⟩)]
      rw [if_pos (Or.inl hgood.2.2.2)]
      rw [ih (acc ++ [comp]) (fun c hc => hcs c (List.mem_cons_of_mem _ hc))]
      have : (List.filter (fun c => decide (¬ c = [])) (comp :: rest)) =
          comp :: rest.filter (fun c => ¬ c = []) := by
        simp [List.filter_cons, hgood.1]
      rw [this, List.append_assoc]
      rfl

/-- Joining components and prepending the root separator recovers the
    canonical file path. -/
theorem joinSlash_file (cs : List (List Char)) (hne : cs ≠ []) :
    '/' :: joinSlash cs = fileOfComps cs := by
  induction cs with
  | nil => exact absurd rfl hne
  | cons c cs' ih =>
    cases hcs : cs' with
    | nil =>
      subst hcs
      show '/' :: joinSlash [c] = _
      rw [joinSlash, fileOfComps]
      rw [show fileOfComps [] = [] from rfl, List.append_nil]
    | cons c2 cs'' =>
      subst hcs
      have hj : joinSlash (c :: c2 :: cs'') = c ++ '/' :: joinSlash (c2 :: cs'') := rfl
      rw [fileOfComps, hj, ← ih (List.cons_ne_nil _ _)]
      simp

end MiniwdlZip

namespace MiniwdlZip

/-- Characters of a wrapped character list. -/
theorem data_ofChars (l : List Char) : (ofChars l).data = l := rfl

/-- A canonical absolute path never starts with a double separator. -/
theorem listIsPref_two_slash (x : Char) (rest : List Char) (hx : x ≠ '/') :
    listIsPref ['/', '/'] ('/' :: x :: rest) = false := by
  simp [listIsPref]
  intro h
  exact absurd h.symm hx

/-- The first component of a canonical path is nonempty and slash-free. -/
theorem goodComps_cons_shape (c : List Char) (cs' : List (List Char))
    (hg : goodComps (c :: cs')) : ∃ x c', c = x :: c' ∧ x ≠ '/' := by
  have h1 := (hg c (List.mem_cons_self _ _)).1
  cases c with
  | nil => exact absurd rfl h1
  | cons x c' =>
    exact ⟨x, c', rfl, (hg _ (List.mem_cons_self _ _)).2.1 x (List.mem_cons_self _ _)⟩

/-- Well-formed components survive the nonempty filter unchanged. -/
theorem filter_goodComps (cs : List (List Char)) (hg : goodComps cs) :
    cs.filter (fun c => ¬ c = []) = cs := by
  apply List.filter_eq_self.mpr
  intro a ha
  simp [(hg a ha).1]

/-- posixpath.normpath is the identity on canonical absolute file paths. -/
theorem normpath_file (cs : List (List Char)) (hg : goodComps cs) (hne : cs ≠ []) :
    normpath (ofChars (fileOfComps cs)) = ofChars (fileOfComps cs) := by
  obtain ⟨c, cs', rfl⟩ : ∃ c cs', cs = c :: cs' := by
    cases cs with
    | nil => exact absurd rfl hne
    | cons c cs' => exact ⟨_, _, rfl⟩
  obtain ⟨x, c', rfl, hx⟩ := goodComps_cons_shape c cs' hg
  have hdata : (ofChars (fileOfComps ((x :: c') :: cs'))).data =
      '/' :: x :: (c' ++ fileOfComps cs') := by
    rw [data_ofChars, fileOfComps]
    rfl
  simp only [normpath, hdata]
  rw [if_neg (by simp)]
  have h1 : listIsPref ['/'] ('/' :: x :: (c' ++ fileOfComps cs')) = true := by
    simp [listIsPref]
  rw [h1, listIsPref_two_slash x _ hx]
  norm_num
  rw [show ('/' :: x :: (c' ++ fileOfComps cs')) = fileOfComps ((x :: c') :: cs') from rfl,
    splitSlash_file _ hg (List.cons_ne_nil _ _)]
  have hall : ∀ c ∈ ([] : List Char) :: (x :: c') :: cs', c = [] ∨ goodComp c := by
    intro cc hc
    rcases List.mem_cons.mp hc with rfl | hc2
    · exact Or.inl rfl
    · exact Or.inr (hg cc hc2)
  rw [normLoop_filter true _ [] hall]
  have hfil : (([] : List Char) :: (x :: c') :: cs').filter (fun c => ¬ c = []) =
      (x :: c') :: cs' := by
    rw [List.filter_cons]
    norm_num
    exact ⟨(hg _ (List.mem_cons_self _ _)).1,
      fun a ha => (hg a (List.mem_cons_of_mem _ ha)).1⟩
  rw [hfil]
  rw [List.nil_append]
  rw [joinSlash_file _ (List.cons_ne_nil _ _)]
  rw [if_neg (by rw [← joinSlash_file _ (List.cons_ne_nil _ _)]; simp)]

end MiniwdlZip

namespace MiniwdlZip

/-- posixpath.normpath strips the trailing separator of a canonical
    directory identity. -/
theorem normpath_dir (dc : List (List Char)) (hg : goodComps dc) (hne : dc ≠ []) :
    normpath (ofChars (dirOfComps dc)) = ofChars (fileOfComps dc) := by
  obtain ⟨c, dc', rfl⟩ : ∃ c dc', dc = c :: dc' := by
    cases dc with
    | nil => exact absurd rfl hne
    | cons c dc' => exact ⟨_, _, rfl⟩
  obtain ⟨x, c', rfl, hx⟩ := goodComps_cons_shape c dc' hg
  have hdata : (ofChars (dirOfComps ((x :: c') :: dc'))).data =
      '/' :: x :: ((c' ++ fileOfComps dc') ++ ['/']) := rfl
  simp only [normpath, hdata]
  rw [if_neg (by simp)]
  have h1 : listIsPref ['/'] ('/' :: x :: ((c' ++ fileOfComps dc') ++ ['/'])) = true := by
    simp [listIsPref]
  rw [h1, listIsPref_two_slash x _ hx]
  norm_num
  rw [show (c' ++ (fileOfComps dc' ++ ['/'])) = ((c' ++ fileOfComps dc') ++ ['/']) from
    (List.append_assoc c' (fileOfComps dc') ['/']).symm]
  rw [show ('/' :: x :: ((c' ++ fileOfComps dc') ++ ['/'])) =
    fileOfComps ((x :: c') :: dc') ++ ['/'] from rfl]
  rw [splitSlash_append_slash, splitSlash_file _ hg (List.cons_ne_nil _ _)]
  have hall : ∀ cc ∈ (([] : List Char) :: (x :: c') :: dc') ++ [[]], cc = [] ∨ goodComp cc := by
    intro cc hc
    rcases List.mem_append.mp hc with h2 | h2
    · rcases List.mem_cons.mp h2 with rfl | h3
      · exact Or.inl rfl
      · exact Or.inr (hg cc h3)
    · rcases List.mem_singleton.mp h2 with rfl
      exact Or.inl rfl
  rw [show (([] : List Char) :: (x :: c') :: dc') ++ [[]] =
    ([] : List Char) :: (((x :: c') :: dc') ++ [[]]) from rfl] at hall
  rw [show ((([] : List Char) :: (x :: c') :: dc') ++ [[]]) =
    ([] : List Char) :: (((x :: c') :: dc') ++ [[]]) from rfl]
  rw [normLoop_filter _ _ [] hall]
  have hfil : ((([] : List Char) :: (((x :: c') :: dc') ++ [[]]))).filter
      (fun c => ¬ c = []) = (x :: c') :: dc' := by
    simp only [List.filter_cons, List.filter_append]
    norm_num
    rw [if_neg (List.cons_ne_nil x c')]
    congr 1
    apply List.filter_eq_self.mpr
    intro a ha
    simp [(hg a (List.mem_cons_of_mem _ ha)).1]
  rw [hfil]
  rw [List.nil_append]
  rw [joinSlash_file _ (List.cons_ne_nil _ _)]
  rw [if_neg (by rw [← joinSlash_file _ (List.cons_ne_nil _ _)]; simp)]

/-- relpath's component view of a canonical absolute file path. -/
theorem relComps_file (cs : List (List Char)) (hg : goodComps cs) (hne : cs ≠ []) :
    relComps (ofChars (fileOfComps cs)) = cs := by
  obtain ⟨c, cs', rfl⟩ : ∃ c cs', cs = c :: cs' := by
    cases cs with
    | nil => exact absurd rfl hne
    | cons c cs' => exact ⟨_, _, rfl⟩
  obtain ⟨x, c', rfl, hx⟩ := goodComps_cons_shape c cs' hg
  rw [relComps, pyAbs]
  rw [if_pos (by simp [data_ofChars, fileOfComps, listIsPref])]
  rw [normpath_file _ hg (List.cons_ne_nil _ _)]
  rw [data_ofChars]
  rw [splitSlash_file _ hg (List.cons_ne_nil _ _)]
  rw [List.filter_cons]
  norm_num
  exact ⟨(hg _ (List.mem_cons_self _ _)).1,
    fun a ha => (hg a (List.mem_cons_of_mem _ ha)).1⟩

/-- relpath's component view of a canonical directory identity. -/
theorem relComps_dir (dc : List (List Char)) (hg : goodComps dc) :
    relComps (ofChars (dirOfComps dc)) = dc := by
  cases hdc : dc with
  | nil => rfl
  | cons c dc' =>
    subst hdc
    obtain ⟨x, c', rfl, hx⟩ := goodComps_cons_shape c dc' hg
    rw [relComps, pyAbs]
    rw [if_pos (by simp [data_ofChars, dirOfComps, fileOfComps, listIsPref])]
    rw [normpath_dir _ hg (List.cons_ne_nil _ _)]
    rw [data_ofChars]
    rw [splitSlash_file _ hg (List.cons_ne_nil _ _)]
    rw [List.filter_cons]
    norm_num
    exact ⟨(hg _ (List.mem_cons_self _ _)).1,
      fun a ha => (hg a (List.mem_cons_of_mem _ ha)).1⟩

/-- The componentwise common run of a list with its own extension is the
    whole list. -/
theorem commonLen_append (dc rest : List (List Char)) :
    commonLen dc (dc ++ rest) = dc.length := by
  induction dc with
  | nil => cases rest <;> rfl
  | cons d dc' ih =>
    show commonLen (d :: dc') (d :: (dc' ++ rest)) = _
    rw [commonLen]
    rw [if_pos rfl, ih]
    rfl

/-- For a document inside the main directory, posixpath.relpath returns
    exactly the joined residual components, with no ".." segments. -/
theorem relpath_inside (dc rest : List (List Char)) (hgd : goodComps dc)
    (hga : goodComps (dc ++ rest)) (hne : rest ≠ []) :
    relpath (ofChars (fileOfComps (dc ++ rest))) (ofChars (dirOfComps dc)) =
      ofChars (joinSlash rest) := by
  simp only [relpath]
  rw [relComps_file _ hga (by
    intro h
    exact hne (List.append_eq_nil.mp h).2)]
  rw [relComps_dir dc hgd]
  rw [commonLen_append]
  rw [Nat.sub_self]
  rw [List.replicate_zero, List.nil_append]
  rw [List.drop_left]
  rw [if_neg hne]

end MiniwdlZip

namespace MiniwdlZip

/-- Claim C1, amended.  Restricted to documents whose canonical absolute
    paths start with `main_dir` (the non-quarantined branch of
    `build_zip_paths`), the archive path map is injective: two such documents
    with the same relative archive path are the same document.  (For
    documents outside `main_dir` injectivity fails; see the counterexample.)
    Canonicity is expressed by exhibiting the slash-separated components. -/
theorem zipPath_injective_within_main
    (dc csa csb : List (List Char)) (m a b : String)
    (hm : m.data = dirOfComps dc) (hgm : goodComps dc)
    (ha : a.data = fileOfComps csa) (hga : goodComps csa)
    (hb : b.data = fileOfComps csb) (hgb : goodComps csb)
    (hpa : pyStartswith a m = true) (hpb : pyStartswith b m = true)
    (heq : zipPath m a = zipPath m b) : a = b := by
  obtain ⟨da⟩ := a
  obtain ⟨db⟩ := b
  obtain ⟨dm⟩ := m
  dsimp only at ha hb hm
  subst ha hb hm
  -- decompose the two canonical paths over the main directory
  obtain ⟨ta, hta⟩ := (listIsPref_iff _ _).mp hpa
  obtain ⟨tb, htb⟩ := (listIsPref_iff _ _).mp hpb
  obtain ⟨restA, hcsa, hfa⟩ := dir_pref_file dc csa ta hgm hga (by rw [← hta])
  obtain ⟨restB, hcsb, hfb⟩ := dir_pref_file dc csb tb hgm hgb (by rw [← htb])
  have hraneq : restA ≠ [] := by
    intro h
    rw [h] at hfa
    exact absurd hfa.symm (by simp [fileOfComps])
  have hrbneq : restB ≠ [] := by
    intro h
    rw [h] at hfb
    exact absurd hfb.symm (by simp [fileOfComps])
  -- both are in the relpath branch of zipPath
  rw [zipPath, if_pos hpa, zipPath, if_pos hpb] at heq
  have heq2 := Option.some.inj heq
  rw [hcsa, hcsb] at heq2
  rw [show (String.mk (fileOfComps (dc ++ restA))) = ofChars (fileOfComps (dc ++ restA)) from rfl,
    show (String.mk (dirOfComps dc)) = ofChars (dirOfComps dc) from rfl,
    show (String.mk (fileOfComps (dc ++ restB))) = ofChars (fileOfComps (dc ++ restB)) from rfl]
    at heq2
  rw [relpath_inside dc restA hgm (by rw [← hcsa]; exact hga) hraneq] at heq2
  rw [relpath_inside dc restB hgm (by rw [← hcsb]; exact hgb) hrbneq] at heq2
  have hjoin : joinSlash restA = joinSlash restB := congrArg String.data heq2
  have hfile : fileOfComps restA = fileOfComps restB := by
    rw [← joinSlash_file _ hraneq, ← joinSlash_file _ hrbneq, hjoin]
  have hrest : restA = restB := by
    refine fileOfComps_inj restA restB ?_ ?_ hfile
    · intro c hc
      exact (hga c (by rw [hcsa]; exact List.mem_append_right _ hc)).2.1
    · intro c hc
      exact (hgb c (by rw [hcsb]; exact List.mem_append_right _ hc)).2.1
  rw [hcsa, hcsb, hrest]

/-- Witness for claim C1's theorem, at main_dir "/a/" and document
    "/a/d/f.wdl". -/
theorem zipPath_injective_within_main_witness :
    (String.mk (fileOfComps [['a'], ['d'], ['f', '.', 'w', 'd', 'l']]) =
      String.mk (fileOfComps [['a'], ['d'], ['f', '.', 'w', 'd', 'l']])) :=
  zipPath_injective_within_main [['a']]
    [['a'], ['d'], ['f', '.', 'w', 'd', 'l']] [['a'], ['d'], ['f', '.', 'w', 'd', 'l']]
    (String.mk (dirOfComps [['a']]))
    (String.mk (fileOfComps [['a'], ['d'], ['f', '.', 'w', 'd', 'l']]))
    (String.mk (fileOfComps [['a'], ['d'], ['f', '.', 'w', 'd', 'l']]))
    rfl (by decide) rfl (by decide) rfl (by decide) (by decide) (by decide) rfl

end MiniwdlZip

namespace MiniwdlValue

/-- Claim C9, amended.  For every Int value whose magnitude rounds (to 53
    significant bits, ties to even) below 2^1024 -- that is, whose conversion
    does not overflow -- coercing with desired type Float returns a new Float
    value whose raw value is exactly the IEEE-754 binary64 conversion of the
    original integer, the widening interception of `Int.coerce`; the original
    Int value is left unchanged (immediate in this pure model).  For larger
    magnitudes Python float() raises OverflowError (see the counterexample). -/
theorem int_coerce_float_widen (i m : Int) (h : pyFloatOfInt i = some m) :
    coerce (WValue.int i) (some WType.float) = some (WValue.float m) ∧
    (WValue.float m).wtype = WType.float := by
  constructor
  · show (pyFloatOfInt i).map WValue.float = some (WValue.float m)
    rw [h]
    rfl
  · rfl

set_option maxRecDepth 100000 in
/-- Witness for claim C9's theorem: 2^53 + 1 is not representable in binary64
    and converts (ties to even) to the Float with raw value 2^53. -/
theorem int_coerce_float_widen_witness :
    coerce (WValue.int (Int.ofNat (2 ^ 53 + 1))) (some WType.float) =
      some (WValue.float (Int.ofNat (2 ^ 53))) ∧
    (WValue.float (Int.ofNat (2 ^ 53))).wtype = WType.float :=
  int_coerce_float_widen (Int.ofNat (2 ^ 53 + 1)) (Int.ofNat (2 ^ 53)) (by decide)

end MiniwdlValue
